import Mathlib

/-!
# Verification of `synthetic_data.py` (maximum-likelihood-mutual-information)

Shallow embedding of the module `synthetic_data.py`, which implements a
`Gaussian` class with four operations:

* `generate_example(dim, n_samples, rhoz_lims, cond)`
* `sample_cov_matrix(dim, cond)`
* `compute_gaussian_mi(cov_matrix, dim)`
* `estimate_mvn_mi(data)`

Modelling conventions:

* Machine floats are modelled by real numbers `ℝ`.  The one place the code
  can produce a non-finite float (`np.log` of a non-positive determinant in
  `compute_gaussian_mi`) is modelled explicitly by the `MIVal` type below;
  `np.log` never raises, it returns `-inf` at `0` and `nan` below `0`.
* All randomness flows through numpy's global generator.  Each random draw
  the code performs becomes an explicit input of the embedded function
  (`GenDraws`, `CovDraws`); hypotheses on those inputs describe the support
  of the corresponding distribution (e.g. `np.random.uniform(low, high)`
  yields values in the half-open interval `[low, high)`).
* `scipy.linalg.eigh` of the random symmetric matrix `M @ M.T` built in the
  retry loop of `sample_cov_matrix` is a black-box numeric primitive; each
  loop iteration's result (eigenvalue vector and eigenvector matrix) is an
  entry of an input stream `ℕ → EighDraw dim`.
* `scipy.linalg.inv` raises `LinAlgError` on a singular matrix; the
  embedded `compute_gaussian_mi` returns `Except LinAlgErr`.
* `sample_cov_matrix` (and hence `generate_example`) can fail in two other
  ways, reflected by the `Outcome` type: with `dim = 0` the expression
  `dummy_spectrum.min()` is a reduction of an empty array and raises a
  `ValueError`; and the `while mini < 0` retry loop has no iteration cap,
  so for a stream of eigh results whose minimum eigenvalue is always
  negative it never terminates (`Outcome.diverges`).
-/

open Matrix

/-- Result of one iteration of the retry loop in `sample_cov_matrix`:
the pair `dummy_spectrum, eigenvectors = linalg.eigh(M @ M.T)` obtained from
one fresh normal draw `M`. -/
structure EighDraw (dim : ℕ) where
  dummySpectrum : Fin dim → ℝ
  eigenvectors : Matrix (Fin dim) (Fin dim) ℝ

/-- The random draws consumed by one call of `sample_cov_matrix`:
the `dim` uniform draws from `[1, cond)` forming the unsorted spectrum, and
the stream of eigendecompositions produced by the retry loop. -/
structure CovDraws (dim : ℕ) where
  spectrumU : Fin dim → ℝ
  eighs : ℕ → EighDraw dim

/-- The triple returned by `sample_cov_matrix`. -/
structure CovResult (dim : ℕ) where
  cov_matrix : Matrix (Fin dim) (Fin dim) ℝ
  spectrum : Fin dim → ℝ
  eigenvectors : Matrix (Fin dim) (Fin dim) ℝ

/-- Outcome of a call that can also raise a numpy `ValueError`
(empty-array reduction) or fail to terminate (the unbounded retry loop). -/
inductive Outcome (α : Type*) where
  | ok (res : α)
  | valueError
  | diverges
  deriving DecidableEq

/-- Projection discarding the failure modes. -/
def Outcome.toOption {α : Type*} : Outcome α → Option α
  | .ok r => some r
  | .valueError => none
  | .diverges => none

/-- `arr.min()` for a nonempty numpy array, here a tuple `Fin dim → ℝ`. -/
noncomputable def npMin {dim : ℕ} (hd : dim ≠ 0) (f : Fin dim → ℝ) : ℝ :=
  Finset.univ.inf' (Finset.univ_nonempty_iff.mpr ⟨⟨0, Nat.pos_of_ne_zero hd⟩⟩) f

/-- `-np.sort(-u)`: sort a tuple in descending order (the code sorts the
negated tuple ascending and negates back). -/
noncomputable def npSortDesc {n : ℕ} (u : Fin n → ℝ) : Fin n → ℝ :=
  fun i => -(((fun j => -u j) ∘ Tuple.sort (fun j => -u j)) i)

open Classical in
/-- `Gaussian.sample_cov_matrix(dim, cond)` (lines 99-137).

The `cond` argument only parametrises the distribution of the spectrum
draws (`np.random.uniform(low=1, high=cond, size=(dim,))`), so it does not
appear in the deterministic data flow; the drawn values are `dr.spectrumU`.
For `dim = 0`, `dummy_spectrum.min()` raises a `ValueError`; the retry loop
`while mini < 0` exits at the first stream index whose minimum eigenvalue
is non-negative and never exits if there is no such index. -/
noncomputable def sample_cov_matrix (dim : ℕ) (cond : ℝ) (dr : CovDraws dim) :
    Outcome (CovResult dim) :=
  if hd : dim = 0 then .valueError
  else if hl : ∃ k, 0 ≤ npMin hd (dr.eighs k).dummySpectrum then
    .ok ⟨(dr.eighs (Nat.find hl)).eigenvectors * Matrix.diagonal (npSortDesc dr.spectrumU) *
           (dr.eighs (Nat.find hl)).eigenvectorsᵀ,
         npSortDesc dr.spectrumU,
         (dr.eighs (Nat.find hl)).eigenvectors⟩
  else .diverges

/-- The random draws consumed by one call of `generate_example`:
`rhozU` are the uniform draws from `[low, high)` (line 77), `signU` the
uniform `[0, 1)` draws deciding each sign (line 78), `zxU` the standard
normal latent samples (line 84), `noiseU` the `(n_samples, dim)` normal
noise of line 85, and `covX`, `covY` the draws of the two
`sample_cov_matrix` calls. -/
structure GenDraws (dim n_samples : ℕ) where
  rhozU : Fin dim → ℝ
  signU : Fin dim → ℝ
  zxU : Matrix (Fin dim) (Fin n_samples) ℝ
  noiseU : Matrix (Fin n_samples) (Fin dim) ℝ
  covX : CovDraws dim
  covY : CovDraws dim

/-- The tuple `(data_x, data_y, MI, gen_params)` returned by
`generate_example`, with the `gen_params` dictionary flattened into its
three entries. -/
structure GenResult (dim n_samples : ℕ) where
  data_x : Matrix (Fin dim) (Fin n_samples) ℝ
  data_y : Matrix (Fin dim) (Fin n_samples) ℝ
  MI : ℝ
  sigma_xx : Matrix (Fin dim) (Fin dim) ℝ
  sigma_yy : Matrix (Fin dim) (Fin dim) ℝ
  rhoz : Fin dim → ℝ

/-- The local `rhoz` of `generate_example` after line 78: each drawn
magnitude is multiplied by `((u < 0.5) - 0.5) * 2`, i.e. by `+1` or `-1`. -/
noncomputable def rhozOf {dim n_samples : ℕ} (dr : GenDraws dim n_samples) : Fin dim → ℝ :=
  fun i => dr.rhozU i * (((if dr.signU i < 1/2 then (1 : ℝ) else 0) - 1/2) * 2)

/-- The local `MI` of `generate_example` (line 81):
`-0.5*np.sum(np.log(1-rhoz**2))`. -/
noncomputable def miOf {dim n_samples : ℕ} (dr : GenDraws dim n_samples) : ℝ :=
  -(1/2) * ∑ i, Real.log (1 - rhozOf dr i ^ 2)

/-- The local `zy` of `generate_example` (lines 85-86):
`zy[i,s] = rhoz[i]·zx[i,s] + sqrt(1 - rhoz[i]²)·noise[s,i]`. -/
noncomputable def zyOf {dim n_samples : ℕ} (dr : GenDraws dim n_samples) :
    Matrix (Fin dim) (Fin n_samples) ℝ :=
  Matrix.of fun i s =>
    rhozOf dr i * dr.zxU i s + Real.sqrt (1 - rhozOf dr i ^ 2) * dr.noiseU s i

/-- `Gaussian.generate_example(dim, n_samples, rhoz_lims, cond)`
(lines 46-96).  `rhoz_lims` and `cond` only parametrise distributions of
the draws in `dr`, so they do not appear in the deterministic data flow.
The locals `rhoz`, `MI`, `zy` of the source are the definitions `rhozOf`,
`miOf`, `zyOf` above; lines 88-92 colour each side's latent samples through
an independently sampled covariance factor `V · diag(sqrt(spectrum))`. -/
noncomputable def generate_example (dim n_samples : ℕ)
    (rhoz_lims : ℝ × ℝ) (cond : ℝ × ℝ) (dr : GenDraws dim n_samples) :
    Outcome (GenResult dim n_samples) :=
  match sample_cov_matrix dim cond.1 dr.covX with
  | .ok rx =>
    match sample_cov_matrix dim cond.2 dr.covY with
    | .ok ry =>
      .ok ⟨rx.eigenvectors * Matrix.diagonal (fun i => Real.sqrt (rx.spectrum i)) * dr.zxU,
           ry.eigenvectors * Matrix.diagonal (fun i => Real.sqrt (ry.spectrum i)) * zyOf dr,
           miOf dr, rx.cov_matrix, ry.cov_matrix, rhozOf dr⟩
    | .valueError => .valueError
    | .diverges => .diverges
  | .valueError => .valueError
  | .diverges => .diverges

/-- The float value of the MI returned by `compute_gaussian_mi`:
`-0.5 * np.log d` is an ordinary float for `d > 0`, is `+inf` for `d = 0`
(`np.log 0 = -inf`, with a runtime warning but no exception), and is `nan`
for `d < 0`. -/
inductive MIVal where
  | finite (x : ℝ)
  | posInf
  | nan

/-- `-0.5 * np.log d` with numpy semantics for non-positive arguments. -/
noncomputable def negHalfLog (d : ℝ) : MIVal :=
  if 0 < d then .finite (-(1/2) * Real.log d)
  else if d = 0 then .posInf
  else .nan

/-- `scipy.linalg.inv` raises `LinAlgError` on an exactly singular input. -/
inductive LinAlgErr where
  | singular
  deriving DecidableEq

open Classical in
/-- `Gaussian.compute_gaussian_mi(cov_matrix, dim)` (lines 140-172).

The slicing `cov_matrix[:dim, :dim]`, `[:dim, dim:]`, `[dim:, dim:]` is
modelled by indexing the matrix over a sum type `p ⊕ q` (`p` the first
`dim` indices, `q` the rest) and taking the corresponding blocks; the
lower-left block of the input is never read — line 169 uses `sigma_xy.T`
in its place.  Each `linalg.inv` call raises on a singular argument.
With the source's locals: `sigma_xx = toBlocks₁₁`, `sigma_xy = toBlocks₁₂`,
`sigma_yy = toBlocks₂₂`, `Bxy = sigma_xx⁻¹ * sigma_xy`,
`Byx = sigma_yy⁻¹ * sigma_xyᵀ`, and the result is
`-0.5 * np.log (det (1 - Bxy * Byx))`. -/
noncomputable def compute_gaussian_mi {p q : Type*}
    [Fintype p] [DecidableEq p] [Fintype q] [DecidableEq q]
    (cov_matrix : Matrix (p ⊕ q) (p ⊕ q) ℝ) : Except LinAlgErr MIVal :=
  if IsUnit cov_matrix.toBlocks₁₁.det then
    if IsUnit cov_matrix.toBlocks₂₂.det then
      .ok (negHalfLog (Matrix.det (1 -
        cov_matrix.toBlocks₁₁⁻¹ * cov_matrix.toBlocks₁₂ *
        (cov_matrix.toBlocks₂₂⁻¹ * cov_matrix.toBlocks₁₂ᵀ))))
    else .error .singular
  else .error .singular

/-- Row mean of a data matrix, as in `np.cov` (each row is one variable,
each column one observation). -/
noncomputable def np_mean {r n : ℕ} (data : Matrix (Fin r) (Fin n) ℝ) (i : Fin r) : ℝ :=
  (∑ k, data i k) / n

/-- `np.cov(data)` with the default unbiased normalisation `1 / (n - 1)`. -/
noncomputable def np_cov {r n : ℕ} (data : Matrix (Fin r) (Fin n) ℝ) :
    Matrix (Fin r) (Fin r) ℝ :=
  Matrix.of fun i j =>
    (∑ k, (data i k - np_mean data i) * (data j k - np_mean data j)) / ((n : ℝ) - 1)

/-- The index split performed by `dim = int(Chat.shape[0]/2)` followed by
the slices `[:dim]` / `[dim:]`: the first `r / 2` indices form the x block,
the remaining `r - r / 2` the y block. -/
def splitIdx (r : ℕ) : Fin (r / 2) ⊕ Fin (r - r / 2) ≃ Fin r :=
  finSumFinEquiv.trans (finCongr (Nat.add_sub_cancel' (Nat.div_le_self r 2)))

/-- `Gaussian.estimate_mvn_mi(data)` (lines 175-198): estimate the
covariance matrix with `np.cov` and reuse `compute_gaussian_mi` with
`dim = int(rows/2)`. -/
noncomputable def estimate_mvn_mi {r n : ℕ} (data : Matrix (Fin r) (Fin n) ℝ) :
    Except LinAlgErr MIVal :=
  compute_gaussian_mi ((np_cov data).submatrix (splitIdx r) (splitIdx r))

/-! ## Basic lemmas about the embedded operations -/

theorem npMin_fin_one (hd : (1 : ℕ) ≠ 0) (f : Fin 1 → ℝ) : npMin hd f = f 0 :=
  le_antisymm (Finset.inf'_le _ (Finset.mem_univ 0))
    (Finset.le_inf' _ _ fun b _ => by rw [Subsingleton.elim b 0])

theorem npSortDesc_antitone {n : ℕ} (u : Fin n → ℝ) : Antitone (npSortDesc u) :=
  fun _ _ hij => neg_le_neg (Tuple.monotone_sort (fun j => -u j) hij)

theorem npSortDesc_perm {n : ℕ} (u : Fin n → ℝ) :
    ∃ σ : Equiv.Perm (Fin n), npSortDesc u = u ∘ σ :=
  ⟨Tuple.sort (fun j => -u j), funext fun i => by
    simp [npSortDesc, Function.comp]⟩

theorem npSortDesc_fin_one (u : Fin 1 → ℝ) : npSortDesc u = u := by
  funext i
  simp [npSortDesc, Function.comp, Subsingleton.elim (Tuple.sort (fun j => -u j) i) i]

theorem sample_cov_matrix_eq_ok {dim : ℕ} (cond : ℝ) (dr : CovDraws dim)
    (hd : ¬dim = 0) (hl : ∃ k, 0 ≤ npMin hd (dr.eighs k).dummySpectrum) :
    sample_cov_matrix dim cond dr =
      .ok ⟨(dr.eighs (Nat.find hl)).eigenvectors * Matrix.diagonal (npSortDesc dr.spectrumU) *
             (dr.eighs (Nat.find hl)).eigenvectorsᵀ,
           npSortDesc dr.spectrumU, (dr.eighs (Nat.find hl)).eigenvectors⟩ := by
  unfold sample_cov_matrix
  rw [dif_neg hd]
  rw [dif_pos hl]

theorem sample_cov_matrix_ok_inv {dim : ℕ} {cond : ℝ} {dr : CovDraws dim} {res : CovResult dim}
    (h : sample_cov_matrix dim cond dr = .ok res) :
    res.spectrum = npSortDesc dr.spectrumU ∧
      ∃ k, res.eigenvectors = (dr.eighs k).eigenvectors ∧
        res.cov_matrix = res.eigenvectors * Matrix.diagonal res.spectrum * res.eigenvectorsᵀ := by
  unfold sample_cov_matrix at h
  by_cases hd : dim = 0
  · rw [dif_pos hd] at h
    exact Outcome.noConfusion h
  · rw [dif_neg hd] at h
    by_cases hl : ∃ k, 0 ≤ npMin hd (dr.eighs k).dummySpectrum
    · rw [dif_pos hl] at h
      cases h
      exact ⟨rfl, Nat.find hl, rfl, rfl⟩
    · rw [dif_neg hl] at h
      exact Outcome.noConfusion h

theorem generate_example_eq_ok {dim n_samples : ℕ} (lims cond : ℝ × ℝ)
    (dr : GenDraws dim n_samples) {rx ry : CovResult dim}
    (hx : sample_cov_matrix dim cond.1 dr.covX = .ok rx)
    (hy : sample_cov_matrix dim cond.2 dr.covY = .ok ry) :
    generate_example dim n_samples lims cond dr =
      .ok ⟨rx.eigenvectors * Matrix.diagonal (fun i => Real.sqrt (rx.spectrum i)) * dr.zxU,
           ry.eigenvectors * Matrix.diagonal (fun i => Real.sqrt (ry.spectrum i)) * zyOf dr,
           miOf dr, rx.cov_matrix, ry.cov_matrix, rhozOf dr⟩ := by
  unfold generate_example
  rw [hx, hy]

theorem generate_example_ok_inv {dim n_samples : ℕ} {lims cond : ℝ × ℝ}
    {dr : GenDraws dim n_samples} {res : GenResult dim n_samples}
    (h : generate_example dim n_samples lims cond dr = .ok res) :
    res.MI = miOf dr ∧ res.rhoz = rhozOf dr ∧
      ∃ rx ry : CovResult dim,
        sample_cov_matrix dim cond.1 dr.covX = .ok rx ∧
        sample_cov_matrix dim cond.2 dr.covY = .ok ry ∧
        res.sigma_xx = rx.cov_matrix ∧ res.sigma_yy = ry.cov_matrix := by
  unfold generate_example at h
  cases hx : sample_cov_matrix dim cond.1 dr.covX with
  | ok rx =>
    rw [hx] at h
    cases hy : sample_cov_matrix dim cond.2 dr.covY with
    | ok ry =>
      rw [hy] at h
      cases h
      exact ⟨rfl, rfl, rx, ry, rfl, rfl, rfl, rfl⟩
    | valueError =>
      rw [hy] at h
      exact Outcome.noConfusion h
    | diverges =>
      rw [hy] at h
      exact Outcome.noConfusion h
  | valueError =>
    rw [hx] at h
    exact Outcome.noConfusion h
  | diverges =>
    rw [hx] at h
    exact Outcome.noConfusion h

/-! ## Concrete draws for evaluations -/

/-- A benign eigendecomposition draw in dimension 1: eigenvalue `1`,
eigenvector matrix the identity, so the retry loop exits immediately. -/
noncomputable def eighW : EighDraw 1 := ⟨![1], 1⟩

/-- Concrete `sample_cov_matrix` draws in dimension 1: spectrum draw `1`,
all eigh draws benign. -/
noncomputable def covW : CovDraws 1 := ⟨![1], fun _ => eighW⟩

/-- Concrete `generate_example` draws with `dim = n_samples = 1`:
correlation magnitude draw `1/2`, sign draw `0` (so the sign is `+1`),
latent and noise samples `0`. -/
noncomputable def drW : GenDraws 1 1 := ⟨![1/2], ![0], !![0], !![0], covW, covW⟩

theorem diagonal_one_fin_one : Matrix.diagonal (![1] : Fin 1 → ℝ) = 1 := by
  have h : (![1] : Fin 1 → ℝ) = fun _ => 1 := by
    funext i
    simp
  rw [h, Matrix.diagonal_one]

theorem sample_covW_eval (cond : ℝ) :
    sample_cov_matrix 1 cond covW = .ok ⟨1, ![1], 1⟩ := by
  have hd : ¬(1 : ℕ) = 0 := one_ne_zero
  have hl : ∃ k, 0 ≤ npMin hd (covW.eighs k).dummySpectrum :=
    ⟨0, by simp [npMin_fin_one, covW, eighW]⟩
  rw [sample_cov_matrix_eq_ok cond covW hd hl]
  have hs : npSortDesc covW.spectrumU = ![1] := by
    rw [show covW.spectrumU = ![1] from rfl, npSortDesc_fin_one]
  have he : (covW.eighs (Nat.find hl)).eigenvectors = 1 := rfl
  rw [hs, he, diagonal_one_fin_one]
  simp

/-- The result of the concrete `generate_example` run on `drW`. -/
noncomputable def genResW : GenResult 1 1 := ⟨0, 0, miOf drW, 1, 1, rhozOf drW⟩

theorem genW_eval (lims cond : ℝ × ℝ) :
    generate_example 1 1 lims cond drW = .ok genResW := by
  have hzx : drW.zxU = 0 := by
    ext i s
    simp [drW]
  have hzy : zyOf drW = 0 := by
    ext i s
    simp [zyOf, drW]
  rw [generate_example_eq_ok lims cond drW (sample_covW_eval cond.1) (sample_covW_eval cond.2),
    hzx, hzy]
  simp [genResW]

theorem rhozW_eval : rhozOf drW = ![1/2] := by
  funext i
  rw [Subsingleton.elim i 0]
  norm_num [rhozOf, drW]

/-! ## Claims -/

/-- C1: for every call to `generate_example(dim, n_samples, rhoz_lims, cond)`
with `dim ≥ 1` that returns `(data_x, data_y, MI, gen_params)`, the returned
`MI` equals `-0.5` times the sum over `i` of `log(1 - rhoz[i]²)`, where
`rhoz` is exactly the correlation vector returned in `gen_params`. -/
theorem C1_mi_formula {dim n_samples : ℕ}
    {rhoz_lims cond : ℝ × ℝ} {dr : GenDraws dim n_samples} {res : GenResult dim n_samples}
    (hdim : 1 ≤ dim)
    (h : generate_example dim n_samples rhoz_lims cond dr = .ok res) :
    res.MI = -(1/2) * ∑ i, Real.log (1 - res.rhoz i ^ 2) := by
  obtain ⟨hMI, hrho, -⟩ := generate_example_ok_inv h
  rw [hMI, hrho]
  rfl

/-- Witness for C1: the concrete successful run on `drW`. -/
theorem C1_mi_formula_witness :
    genResW.MI = -(1/2) * ∑ i, Real.log (1 - genResW.rhoz i ^ 2) :=
  C1_mi_formula (le_refl 1) (genW_eval ((0 : ℝ), 1) ((10 : ℝ), 10))

/-! ## Lemmas about `compute_gaussian_mi` -/

theorem toBlocks₁₁_one {p q : Type*} [DecidableEq p] [DecidableEq q] :
    (1 : Matrix (p ⊕ q) (p ⊕ q) ℝ).toBlocks₁₁ = 1 := by
  ext i j
  simp [Matrix.toBlocks₁₁, Matrix.one_apply]

theorem toBlocks₁₂_one {p q : Type*} [DecidableEq p] [DecidableEq q] :
    (1 : Matrix (p ⊕ q) (p ⊕ q) ℝ).toBlocks₁₂ = 0 := by
  ext i j
  simp [Matrix.toBlocks₁₂, Matrix.one_apply]

theorem toBlocks₂₂_one {p q : Type*} [DecidableEq p] [DecidableEq q] :
    (1 : Matrix (p ⊕ q) (p ⊕ q) ℝ).toBlocks₂₂ = 1 := by
  ext i j
  simp [Matrix.toBlocks₂₂, Matrix.one_apply]

theorem compute_gaussian_mi_eq_ok {p q : Type*}
    [Fintype p] [DecidableEq p] [Fintype q] [DecidableEq q]
    (C : Matrix (p ⊕ q) (p ⊕ q) ℝ)
    (hx : IsUnit C.toBlocks₁₁.det) (hy : IsUnit C.toBlocks₂₂.det) :
    compute_gaussian_mi C =
      .ok (negHalfLog (Matrix.det (1 - C.toBlocks₁₁⁻¹ * C.toBlocks₁₂ *
        (C.toBlocks₂₂⁻¹ * C.toBlocks₁₂ᵀ)))) := by
  unfold compute_gaussian_mi
  rw [if_pos hx, if_pos hy]

/-- C2: for every `(2·dim) × (2·dim)` matrix `C` for which the computation
succeeds (both diagonal blocks invertible), `compute_gaussian_mi C` returns
`-0.5 * log (det (I - Bxy·Byx))` (with numpy's log semantics, `negHalfLog`)
where `Bxy = inv(C[:dim,:dim]) @ C[:dim,dim:]` and
`Byx = inv(C[dim:,dim:]) @ C[:dim,dim:].T`. -/
theorem C2_mi_of_cov_formula {dim : ℕ}
    (C : Matrix (Fin dim ⊕ Fin dim) (Fin dim ⊕ Fin dim) ℝ)
    (hx : IsUnit C.toBlocks₁₁.det) (hy : IsUnit C.toBlocks₂₂.det) :
    compute_gaussian_mi C =
      .ok (negHalfLog (Matrix.det (1 - C.toBlocks₁₁⁻¹ * C.toBlocks₁₂ *
        (C.toBlocks₂₂⁻¹ * C.toBlocks₁₂ᵀ)))) :=
  compute_gaussian_mi_eq_ok C hx hy

/-- Witness for C2 at the identity joint covariance with `dim = 1`. -/
theorem C2_mi_of_cov_formula_witness :
    compute_gaussian_mi (1 : Matrix (Fin 1 ⊕ Fin 1) (Fin 1 ⊕ Fin 1) ℝ) =
      .ok (negHalfLog (Matrix.det (1 -
        (1 : Matrix (Fin 1 ⊕ Fin 1) (Fin 1 ⊕ Fin 1) ℝ).toBlocks₁₁⁻¹ *
          (1 : Matrix (Fin 1 ⊕ Fin 1) (Fin 1 ⊕ Fin 1) ℝ).toBlocks₁₂ *
        ((1 : Matrix (Fin 1 ⊕ Fin 1) (Fin 1 ⊕ Fin 1) ℝ).toBlocks₂₂⁻¹ *
          (1 : Matrix (Fin 1 ⊕ Fin 1) (Fin 1 ⊕ Fin 1) ℝ).toBlocks₁₂ᵀ)))) :=
  C2_mi_of_cov_formula 1 (by rw [toBlocks₁₁_one]; simp) (by rw [toBlocks₂₂_one]; simp)

/-- C9: `compute_gaussian_mi` never reads the lower-left block of its input:
two inputs agreeing on the top-left, top-right and bottom-right blocks get
the same result, whatever their lower-left blocks. -/
theorem C9_lower_left_block_ignored {dim : ℕ}
    (C D : Matrix (Fin dim ⊕ Fin dim) (Fin dim ⊕ Fin dim) ℝ)
    (h11 : C.toBlocks₁₁ = D.toBlocks₁₁) (h12 : C.toBlocks₁₂ = D.toBlocks₁₂)
    (h22 : C.toBlocks₂₂ = D.toBlocks₂₂) :
    compute_gaussian_mi C = compute_gaussian_mi D := by
  unfold compute_gaussian_mi
  rw [h11, h12, h22]

/-- Witness for C9: the identity versus the identity with lower-left block
replaced by `5`, in `dim = 1`. -/
theorem C9_lower_left_block_ignored_witness :
    compute_gaussian_mi
        (Matrix.fromBlocks (1 : Matrix (Fin 1) (Fin 1) ℝ) 0 0 1 :
          Matrix (Fin 1 ⊕ Fin 1) (Fin 1 ⊕ Fin 1) ℝ) =
      compute_gaussian_mi (Matrix.fromBlocks (1 : Matrix (Fin 1) (Fin 1) ℝ) 0 !![5] 1) :=
  @C9_lower_left_block_ignored 1 (Matrix.fromBlocks 1 0 0 1)
    (Matrix.fromBlocks 1 0 !![5] 1) (by simp [toBlocks₁₁_one])
    (by simp [toBlocks₁₂_one]) (by simp [toBlocks₂₂_one])

/-! ## The matrix refuting the second half of C5 -/

/-- A `2 × 2` joint "covariance" with unit diagonal blocks and off-diagonal
entry `2`: both inversions succeed but `det (I - Bxy·Byx) = -3 < 0`. -/
noncomputable def Cbad : Matrix (Fin 1 ⊕ Fin 1) (Fin 1 ⊕ Fin 1) ℝ :=
  Matrix.fromBlocks 1 !![2] !![2] 1

theorem Cbad_det :
    Matrix.det (1 - Cbad.toBlocks₁₁⁻¹ * Cbad.toBlocks₁₂ *
      (Cbad.toBlocks₂₂⁻¹ * Cbad.toBlocks₁₂ᵀ)) = -3 := by
  have h11 : Cbad.toBlocks₁₁ = 1 := by simp [Cbad]
  have h12 : Cbad.toBlocks₁₂ = !![2] := by simp [Cbad]
  have h22 : Cbad.toBlocks₂₂ = 1 := by simp [Cbad]
  rw [h11, h12, h22, inv_one, one_mul, one_mul, Matrix.det_fin_one]
  simp [Matrix.mul_apply, Matrix.one_apply, Matrix.vecHead]
  norm_num

theorem Cbad_mi : compute_gaussian_mi Cbad = .ok .nan := by
  rw [compute_gaussian_mi_eq_ok Cbad (by simp [Cbad]) (by simp [Cbad]), Cbad_det]
  unfold negHalfLog
  rw [if_neg (by norm_num), if_neg (by norm_num)]

/-- C5, counterexample to the second half of the claim: at `Cbad` both
diagonal blocks invert fine and `det (I - Bxy·Byx) = -3 ≤ 0`, yet
`compute_gaussian_mi` does not raise any error — `np.log(-3)` is `nan`
(with a runtime warning) and the function returns the non-finite value. -/
theorem C5_cex_log_of_nonpos_returns_nan :
    Matrix.det (1 - Cbad.toBlocks₁₁⁻¹ * Cbad.toBlocks₁₂ *
        (Cbad.toBlocks₂₂⁻¹ * Cbad.toBlocks₁₂ᵀ)) = -3 ∧
      compute_gaussian_mi Cbad = .ok .nan :=
  ⟨Cbad_det, Cbad_mi⟩

/-- C5 amended: `compute_gaussian_mi` raises (`LinAlgError`) exactly when
`Σxx` or `Σyy` is singular; when both invert but `det (I - Bxy·Byx) ≤ 0`
it does **not** raise — it returns a non-finite float (`+inf` for a zero
determinant, `nan` for a negative one). -/
theorem C5_error_conditions {dim : ℕ}
    (C : Matrix (Fin dim ⊕ Fin dim) (Fin dim ⊕ Fin dim) ℝ) :
    ((∃ e, compute_gaussian_mi C = .error e) ↔
      ¬IsUnit C.toBlocks₁₁.det ∨ ¬IsUnit C.toBlocks₂₂.det) ∧
    (∀ (_ : IsUnit C.toBlocks₁₁.det) (_ : IsUnit C.toBlocks₂₂.det),
      Matrix.det (1 - C.toBlocks₁₁⁻¹ * C.toBlocks₁₂ *
        (C.toBlocks₂₂⁻¹ * C.toBlocks₁₂ᵀ)) ≤ 0 →
      compute_gaussian_mi C = .ok .posInf ∨ compute_gaussian_mi C = .ok .nan) := by
  constructor
  · constructor
    · rintro ⟨e, he⟩
      by_contra hcon
      push_neg at hcon
      rw [compute_gaussian_mi_eq_ok C hcon.1 hcon.2] at he
      exact Except.noConfusion he
    · intro hbad
      by_cases hx : IsUnit C.toBlocks₁₁.det
      · have hy : ¬IsUnit C.toBlocks₂₂.det := by
          rcases hbad with h | h
          · exact absurd hx h
          · exact h
        refine ⟨.singular, ?_⟩
        unfold compute_gaussian_mi
        rw [if_pos hx, if_neg hy]
      · refine ⟨.singular, ?_⟩
        unfold compute_gaussian_mi
        rw [if_neg hx]
  · intro hx hy hd
    rw [compute_gaussian_mi_eq_ok C hx hy]
    unfold negHalfLog
    rcases lt_or_eq_of_le hd with hlt | heq
    · rw [if_neg (not_lt.mpr hd), if_neg (ne_of_lt hlt)]
      right
      rfl
    · rw [if_neg (not_lt.mpr hd), if_pos heq]
      left
      rfl

/-- Witness for C5 at `Cbad`. -/
theorem C5_error_conditions_witness :
    compute_gaussian_mi Cbad = .ok .posInf ∨ compute_gaussian_mi Cbad = .ok .nan :=
  (C5_error_conditions Cbad).2 (by simp [Cbad]) (by simp [Cbad])
    (by rw [Cbad_det]; norm_num)

/-! ## C4: argument validation -/

theorem sample_cov_matrix_exists_ok {dim : ℕ} (cond : ℝ) (dr : CovDraws dim)
    (hd : ¬dim = 0) (hl : ∃ k, 0 ≤ npMin hd (dr.eighs k).dummySpectrum) :
    ∃ r, sample_cov_matrix dim cond dr = .ok r :=
  ⟨_, sample_cov_matrix_eq_ok cond dr hd hl⟩

/-- Concrete draws for a call with `n_samples = 0`. -/
noncomputable def drC4 : GenDraws 1 0 := ⟨![1/2], ![0], 0, 0, covW, covW⟩

/-- C4, counterexample: the claim says a call with out-of-range arguments
(here `n_samples = 0`, and conditioning numbers `1/2 < 1`) is rejected at
entry with an InvalidArgument error; in fact no argument is ever checked
and the call completes normally. -/
theorem C4_cex_out_of_range_call_succeeds :
    (generate_example 1 0 ((1 : ℝ)/2, 1) ((1 : ℝ)/2, 1/2) drC4).toOption.isSome = true := by
  rw [generate_example_eq_ok ((1 : ℝ)/2, 1) ((1 : ℝ)/2, 1/2) drC4
    (sample_covW_eval (1/2)) (sample_covW_eval (1/2))]
  rfl

/-- C4 amended: neither `generate_example` nor `sample_cov_matrix` checks
its arguments at entry; there is no InvalidArgument error in the code.
Whatever the values of `rhoz_lims`, `cond` and `n_samples` (including
`n_samples = 0` and conditioning numbers below 1), the call runs to
a normal return as soon as the sampling itself goes through (`dim ≠ 0`
and the retry loops exit); `dim = 0` fails only later, inside the loop,
with a numpy `ValueError` from the empty-array reduction `.min()`. -/
theorem C4_no_argument_validation {dim n_samples : ℕ} (rhoz_lims cond : ℝ × ℝ)
    (dr : GenDraws dim n_samples) (hd : ¬dim = 0)
    (hx : ∃ k, 0 ≤ npMin hd (dr.covX.eighs k).dummySpectrum)
    (hy : ∃ k, 0 ≤ npMin hd (dr.covY.eighs k).dummySpectrum) :
    ∃ res, generate_example dim n_samples rhoz_lims cond dr = .ok res := by
  obtain ⟨rx, hrx⟩ := sample_cov_matrix_exists_ok cond.1 dr.covX hd hx
  obtain ⟨ry, hry⟩ := sample_cov_matrix_exists_ok cond.2 dr.covY hd hy
  exact ⟨_, generate_example_eq_ok rhoz_lims cond dr hrx hry⟩

/-- Witness for C4 at out-of-range arguments. -/
theorem C4_no_argument_validation_witness :
    ∃ res, generate_example 1 0 ((0 : ℝ), 2) ((1 : ℝ)/2, 1/2) drC4 = .ok res :=
  C4_no_argument_validation ((0 : ℝ), 2) ((1 : ℝ)/2, 1/2) drC4 one_ne_zero
    ⟨0, by simp [npMin_fin_one, drC4, covW, eighW]⟩
    ⟨0, by simp [npMin_fin_one, drC4, covW, eighW]⟩

/-! ## C6: the correlation vector -/

theorem rhozOf_sign {dim n_samples : ℕ} (dr : GenDraws dim n_samples) (i : Fin dim) :
    rhozOf dr i = dr.rhozU i ∨ rhozOf dr i = -dr.rhozU i := by
  unfold rhozOf
  by_cases h : dr.signU i < 1/2
  · left
    rw [if_pos h]
    ring
  · right
    rw [if_neg h]
    ring

/-- C6 amended: each entry of the returned `rhoz` is the corresponding
uniform magnitude draw with a sign `+1` or `-1`; its absolute value lies in
the **half-open** interval `[low, high)` — it can equal the lower endpoint
`low`, since `np.random.uniform(low, high)` samples from `[low, high)` —
and it lies strictly in `(-1, 1)` provided `0 ≤ low` and `high ≤ 1`. -/
theorem C6_rhoz_sign_and_range {dim n_samples : ℕ} {low high : ℝ} {cond : ℝ × ℝ}
    {dr : GenDraws dim n_samples} {res : GenResult dim n_samples}
    (hlow : 0 ≤ low) (hhigh : high ≤ 1)
    (hu : ∀ i, low ≤ dr.rhozU i ∧ dr.rhozU i < high)
    (h : generate_example dim n_samples (low, high) cond dr = .ok res) :
    ∀ i, (res.rhoz i = dr.rhozU i ∨ res.rhoz i = -dr.rhozU i) ∧
      low ≤ |res.rhoz i| ∧ |res.rhoz i| < high ∧
      -1 < res.rhoz i ∧ res.rhoz i < 1 := by
  obtain ⟨-, hrho, -⟩ := generate_example_ok_inv h
  intro i
  have hsign := rhozOf_sign dr i
  have habs : |res.rhoz i| = dr.rhozU i := by
    rw [hrho]
    rcases hsign with hs | hs
    · rw [hs]
      exact abs_of_nonneg (le_trans hlow (hu i).1)
    · rw [hs, abs_neg]
      exact abs_of_nonneg (le_trans hlow (hu i).1)
  have h1 : |res.rhoz i| < 1 := lt_of_lt_of_le (by rw [habs]; exact (hu i).2) hhigh
  have h2 := abs_lt.mp h1
  exact ⟨by rw [hrho]; exact hsign, by rw [habs]; exact (hu i).1,
    by rw [habs]; exact (hu i).2, h2.1, h2.2⟩

/-- Witness for C6 on the concrete run `drW` with `rhoz_lims = (0, 1)`. -/
theorem C6_rhoz_sign_and_range_witness :
    (genResW.rhoz 0 = drW.rhozU 0 ∨ genResW.rhoz 0 = -drW.rhozU 0) ∧
      0 ≤ |genResW.rhoz 0| ∧ |genResW.rhoz 0| < 1 ∧
      -1 < genResW.rhoz 0 ∧ genResW.rhoz 0 < 1 :=
  C6_rhoz_sign_and_range le_rfl le_rfl
    (fun i => by rw [Subsingleton.elim i 0]; norm_num [drW])
    (genW_eval ((0 : ℝ), 1) ((10 : ℝ), 10)) 0

/-- C6, counterexample: with `rhoz_lims = (1/2, 3/4)` the magnitude draw
can equal the lower endpoint `1/2` exactly (numpy uniform samples the
half-open interval), and then `|rhoz[0]| = 1/2` is not *strictly* inside
`(1/2, 3/4)` as the claim demands. -/
theorem C6_cex_magnitude_hits_lower_endpoint :
    (generate_example 1 1 ((1 : ℝ)/2, 3/4) ((10 : ℝ), 10) drW).toOption.map
        (fun r => |r.rhoz 0|) = some (1/2) ∧ ¬((1 : ℝ)/2 < (1 : ℝ)/2) := by
  constructor
  · rw [genW_eval ((1 : ℝ)/2, 3/4) ((10 : ℝ), 10)]
    have habs : |genResW.rhoz 0| = 1/2 := by
      rw [show genResW.rhoz = rhozOf drW from rfl, rhozW_eval]
      rw [show (![1/2] : Fin 1 → ℝ) 0 = 1/2 from rfl]
      rw [abs_of_nonneg]
      norm_num
    simp [Outcome.toOption, habs]
  · norm_num

/-! ## C7: the spectrum -/

/-- C7: for `sample_cov_matrix(dim, cond)` with `dim ≥ 1`, `cond ≥ 1` and
the `dim` uniform spectrum draws in `[1, cond]`, the returned spectrum is a
permutation of the draws (so it has exactly `dim` entries, each drawn from
`[1, cond]`) and is sorted in descending order, with every entry between
`1` and `cond`. -/
theorem C7_spectrum_sorted_bounded {dim : ℕ} {cond : ℝ} {dr : CovDraws dim}
    {res : CovResult dim}
    (hdim : 1 ≤ dim) (hcond : 1 ≤ cond)
    (hu : ∀ i, 1 ≤ dr.spectrumU i ∧ dr.spectrumU i ≤ cond)
    (h : sample_cov_matrix dim cond dr = .ok res) :
    (∃ σ : Equiv.Perm (Fin dim), res.spectrum = dr.spectrumU ∘ σ) ∧
      (∀ i j : Fin dim, i ≤ j → res.spectrum j ≤ res.spectrum i) ∧
      (∀ i, 1 ≤ res.spectrum i ∧ res.spectrum i ≤ cond) := by
  obtain ⟨hs, -⟩ := sample_cov_matrix_ok_inv h
  obtain ⟨σ, hσ⟩ := npSortDesc_perm dr.spectrumU
  refine ⟨⟨σ, by rw [hs, hσ]⟩, ?_, ?_⟩
  · intro i j hij
    rw [hs]
    exact npSortDesc_antitone dr.spectrumU hij
  · intro i
    rw [hs, congrFun hσ i]
    exact ⟨(hu (σ i)).1, (hu (σ i)).2⟩

/-- Witness for C7 on the concrete draws `covW` with `cond = 1`. -/
theorem C7_spectrum_sorted_bounded_witness :
    (∃ σ : Equiv.Perm (Fin 1),
        (⟨1, ![1], 1⟩ : CovResult 1).spectrum = covW.spectrumU ∘ σ) ∧
      (∀ i j : Fin 1, i ≤ j →
        (⟨1, ![1], 1⟩ : CovResult 1).spectrum j ≤ (⟨1, ![1], 1⟩ : CovResult 1).spectrum i) ∧
      (∀ i, 1 ≤ (⟨1, ![1], 1⟩ : CovResult 1).spectrum i ∧
        (⟨1, ![1], 1⟩ : CovResult 1).spectrum i ≤ 1) :=
  C7_spectrum_sorted_bounded le_rfl le_rfl
    (fun i => by rw [Subsingleton.elim i 0]; norm_num [covW]) (sample_covW_eval 1)

/-! ## C8: the retry loop -/

/-- An adversarial eigh draw reporting minimum eigenvalue `-1` forever. -/
noncomputable def badEigh : EighDraw 1 := ⟨![-1], 1⟩

/-- Draws whose eigh stream always reports a negative minimum eigenvalue. -/
noncomputable def badCov : CovDraws 1 := ⟨![1], fun _ => badEigh⟩

/-- C8, counterexample: the claim says the retry loop is capped and has a
clipping fallback, so that `sample_cov_matrix` terminates for every draw
sequence, including one where every draw reports a negative minimum
eigenvalue.  In the code the loop `while mini < 0` has no cap and no
fallback: on a stream of draws whose reported minimum eigenvalue is always
`-1` it never exits. -/
theorem C8_cex_loop_never_terminates :
    sample_cov_matrix 1 10 badCov = .diverges := by
  have hno : ¬∃ k, 0 ≤ npMin (one_ne_zero : (1 : ℕ) ≠ 0) (badCov.eighs k).dummySpectrum := by
    push_neg
    intro k
    rw [npMin_fin_one]
    norm_num [badCov, badEigh]
  unfold sample_cov_matrix
  rw [dif_neg (one_ne_zero : (1 : ℕ) ≠ 0), dif_neg hno]

/-- C8 amended: the retry loop guarding against a negative minimum
eigenvalue is unbounded and has no clipping fallback: for `dim ≠ 0` the
call diverges exactly when every eigh draw in the stream reports a negative
minimum eigenvalue (and otherwise exits at the first non-negative one). -/
theorem C8_retry_loop_unbounded {dim : ℕ} (cond : ℝ) (dr : CovDraws dim)
    (hd : dim ≠ 0) :
    sample_cov_matrix dim cond dr = .diverges ↔
      ∀ k, npMin hd (dr.eighs k).dummySpectrum < 0 := by
  unfold sample_cov_matrix
  rw [dif_neg hd]
  by_cases hl : ∃ k, 0 ≤ npMin hd (dr.eighs k).dummySpectrum
  · rw [dif_pos hl]
    constructor
    · intro hcon
      exact Outcome.noConfusion hcon
    · intro hall
      obtain ⟨k, hk⟩ := hl
      exact absurd hk (not_le.mpr (hall k))
  · rw [dif_neg hl]
    push_neg at hl
    exact ⟨fun _ => hl, fun _ => rfl⟩

/-- Witness for C8 on the adversarial stream `badCov`. -/
theorem C8_retry_loop_unbounded_witness :
    sample_cov_matrix 1 10 badCov = .diverges ↔
      ∀ k, npMin (one_ne_zero : (1 : ℕ) ≠ 0) (badCov.eighs k).dummySpectrum < 0 :=
  C8_retry_loop_unbounded 10 badCov one_ne_zero

/-! ## C3: round-trip through the model's joint covariance -/

/-- Closed-form MI of a factored joint covariance: if `Σxx = A·Aᵀ`,
`Σyy = B·Bᵀ` and the cross block is `A·diag(ρ)·Bᵀ` (the covariance of the
coloured latents of `generate_example`), then `compute_gaussian_mi` on the
assembled block matrix returns exactly `-0.5·Σᵢ log(1 - ρᵢ²)`. -/
theorem mi_of_factor_model {m : Type*} [Fintype m] [DecidableEq m]
    (A B : Matrix m m ℝ) (ρ : m → ℝ)
    (hA : IsUnit A.det) (hB : IsUnit B.det) (hρ : ∀ i, ρ i ^ 2 < 1) :
    compute_gaussian_mi
        (Matrix.fromBlocks (A * Aᵀ) (A * Matrix.diagonal ρ * Bᵀ)
          (A * Matrix.diagonal ρ * Bᵀ)ᵀ (B * Bᵀ)) =
      .ok (.finite (-(1/2) * ∑ i, Real.log (1 - ρ i ^ 2))) := by
  have hAT : IsUnit Aᵀ.det := by rwa [Matrix.det_transpose]
  have hBT : IsUnit Bᵀ.det := by rwa [Matrix.det_transpose]
  have hxx : IsUnit (A * Aᵀ).det := by
    rw [Matrix.det_mul]
    exact hA.mul hAT
  have hyy : IsUnit (B * Bᵀ).det := by
    rw [Matrix.det_mul]
    exact hB.mul hBT
  have hpos : ∀ i : m, (0 : ℝ) < 1 - ρ i * ρ i := by
    intro i
    have h2 := hρ i
    rw [pow_two] at h2
    linarith
  have hprod : (0 : ℝ) < ∏ i, (1 - ρ i * ρ i) :=
    Finset.prod_pos fun i _ => hpos i
  have h11 := Matrix.toBlocks_fromBlocks₁₁ (A * Aᵀ) (A * Matrix.diagonal ρ * Bᵀ)
    (A * Matrix.diagonal ρ * Bᵀ)ᵀ (B * Bᵀ)
  have h12 := Matrix.toBlocks_fromBlocks₁₂ (A * Aᵀ) (A * Matrix.diagonal ρ * Bᵀ)
    (A * Matrix.diagonal ρ * Bᵀ)ᵀ (B * Bᵀ)
  have h22 := Matrix.toBlocks_fromBlocks₂₂ (A * Aᵀ) (A * Matrix.diagonal ρ * Bᵀ)
    (A * Matrix.diagonal ρ * Bᵀ)ᵀ (B * Bᵀ)
  have hstep : (A * Aᵀ)⁻¹ * (A * Matrix.diagonal ρ * Bᵀ) *
      ((B * Bᵀ)⁻¹ * (A * Matrix.diagonal ρ * Bᵀ)ᵀ) =
      Aᵀ⁻¹ * (Matrix.diagonal ρ * (Matrix.diagonal ρ * Aᵀ)) := by
    rw [Matrix.mul_inv_rev A Aᵀ, Matrix.mul_inv_rev B Bᵀ]
    rw [Matrix.transpose_mul (A * Matrix.diagonal ρ) Bᵀ,
      Matrix.transpose_mul A (Matrix.diagonal ρ),
      Matrix.transpose_transpose B, Matrix.diagonal_transpose ρ]
    simp only [mul_assoc]
    rw [Matrix.nonsing_inv_mul_cancel_left B _ hB,
      Matrix.mul_nonsing_inv_cancel_left Bᵀ _ hBT,
      Matrix.nonsing_inv_mul_cancel_left A _ hA]
  have hdd : (1 : Matrix m m ℝ) - Matrix.diagonal ρ * Matrix.diagonal ρ =
      Matrix.diagonal (fun i => 1 - ρ i * ρ i) := by
    rw [Matrix.diagonal_mul_diagonal, ← Matrix.diagonal_one, Matrix.diagonal_sub]
  have hconj : (1 : Matrix m m ℝ) -
      Aᵀ⁻¹ * (Matrix.diagonal ρ * (Matrix.diagonal ρ * Aᵀ)) =
      Aᵀ⁻¹ * Matrix.diagonal (fun i => 1 - ρ i * ρ i) * Aᵀ := by
    rw [← hdd, mul_sub, sub_mul, mul_one, Matrix.nonsing_inv_mul _ hAT]
    simp only [mul_assoc]
  rw [compute_gaussian_mi_eq_ok _ (by rw [h11]; exact hxx) (by rw [h22]; exact hyy),
    h11, h12, h22, hstep, hconj]
  rw [Matrix.det_conj' ((Matrix.isUnit_iff_isUnit_det Aᵀ).mpr hAT)
    (Matrix.diagonal fun i => 1 - ρ i * ρ i)]
  rw [Matrix.det_diagonal]
  unfold negHalfLog
  rw [if_pos hprod]
  rw [Real.log_prod _ _ fun i _ => ne_of_gt (hpos i)]
  simp only [← pow_two]

/-- C3: round-trip.  For every successful call to `generate_example`,
assemble the full `(2·dim) × (2·dim)` joint covariance matrix of the
generative model from `gen_params = (sigma_xx, sigma_yy, rhoz)`: take any
factorisations `Ax·Axᵀ = sigma_xx`, `Ay·Ayᵀ = sigma_yy` (e.g. the model's
own colouring factors `V·diag(√spectrum)`, or symmetric square roots) and
cross block `Ax·diag(rhoz)·Ayᵀ` — the covariance of `(data_x, data_y)`.
Feeding it to `compute_gaussian_mi` with the same `dim` reproduces exactly
the `MI` value returned by `generate_example` (exactly, in the real
arithmetic of the embedding; "within floating tolerance" in the code). -/
theorem C3_roundtrip {dim n_samples : ℕ} {rhoz_lims cond : ℝ × ℝ}
    {dr : GenDraws dim n_samples} {res : GenResult dim n_samples}
    (h : generate_example dim n_samples rhoz_lims cond dr = .ok res)
    (Ax Ay : Matrix (Fin dim) (Fin dim) ℝ)
    (hAx : IsUnit Ax.det) (hAy : IsUnit Ay.det)
    (hxx : Ax * Axᵀ = res.sigma_xx) (hyy : Ay * Ayᵀ = res.sigma_yy)
    (hρ : ∀ i, res.rhoz i ^ 2 < 1) :
    compute_gaussian_mi
        (Matrix.fromBlocks res.sigma_xx (Ax * Matrix.diagonal res.rhoz * Ayᵀ)
          (Ax * Matrix.diagonal res.rhoz * Ayᵀ)ᵀ res.sigma_yy) =
      .ok (.finite res.MI) := by
  obtain ⟨hMI, hrho, -⟩ := generate_example_ok_inv h
  rw [← hxx, ← hyy, mi_of_factor_model Ax Ay res.rhoz hAx hAy hρ, hMI, hrho]
  rfl

/-- Witness for C3 on the concrete run `drW`, with `Ax = Ay = 1`. -/
theorem C3_roundtrip_witness :
    compute_gaussian_mi
        (Matrix.fromBlocks genResW.sigma_xx
          (1 * Matrix.diagonal genResW.rhoz * (1 : Matrix (Fin 1) (Fin 1) ℝ)ᵀ)
          (1 * Matrix.diagonal genResW.rhoz * (1 : Matrix (Fin 1) (Fin 1) ℝ)ᵀ)ᵀ
          genResW.sigma_yy) =
      .ok (.finite genResW.MI) :=
  C3_roundtrip (genW_eval ((0 : ℝ), 1) ((10 : ℝ), 10)) 1 1 (by simp) (by simp)
    (by simp [genResW]) (by simp [genResW])
    (fun i => by
      rw [Subsingleton.elim i 0, show genResW.rhoz = rhozOf drW from rfl, rhozW_eval]
      norm_num)

/-! ## C10: the plug-in estimator -/

/-- A concrete data matrix with an odd number of rows (`r = 3`) and four
observations; its three rows are zero-mean and mutually orthogonal, so
`np.cov` is `4/3` times the identity. -/
noncomputable def dataOdd : Matrix (Fin 3) (Fin 4) ℝ :=
  !![1, -1, 1, -1; 1, 1, -1, -1; 1, -1, -1, 1]

theorem np_cov_dataOdd : np_cov dataOdd = (4/3 : ℝ) • 1 := by
  ext i j
  fin_cases i <;> fin_cases j <;>
    norm_num [np_cov, np_mean, dataOdd, Fin.sum_univ_four,
      Matrix.smul_apply, Matrix.one_apply, Fin.ext_iff]

theorem np_cov_dataOdd_submatrix :
    (np_cov dataOdd).submatrix (splitIdx 3) (splitIdx 3) =
      (4/3 : ℝ) • (1 : Matrix (Fin (3/2) ⊕ Fin (3 - 3/2))
        (Fin (3/2) ⊕ Fin (3 - 3/2)) ℝ) := by
  rw [np_cov_dataOdd]
  ext i j
  simp [Matrix.submatrix_apply, Matrix.smul_apply, Matrix.one_apply,
    EmbeddingLike.apply_eq_iff_eq]

theorem estimate_dataOdd : estimate_mvn_mi dataOdd = .ok (.finite 0) := by
  unfold estimate_mvn_mi
  rw [np_cov_dataOdd_submatrix]
  have h11 : ((4/3 : ℝ) • (1 : Matrix (Fin (3/2) ⊕ Fin (3 - 3/2))
      (Fin (3/2) ⊕ Fin (3 - 3/2)) ℝ)).toBlocks₁₁ = (4/3 : ℝ) • 1 := by
    ext i j
    simp [Matrix.toBlocks₁₁, Matrix.one_apply]
  have h12 : ((4/3 : ℝ) • (1 : Matrix (Fin (3/2) ⊕ Fin (3 - 3/2))
      (Fin (3/2) ⊕ Fin (3 - 3/2)) ℝ)).toBlocks₁₂ = 0 := by
    ext i j
    simp [Matrix.toBlocks₁₂, Matrix.one_apply]
  have h22 : ((4/3 : ℝ) • (1 : Matrix (Fin (3/2) ⊕ Fin (3 - 3/2))
      (Fin (3/2) ⊕ Fin (3 - 3/2)) ℝ)).toBlocks₂₂ = (4/3 : ℝ) • 1 := by
    ext i j
    simp [Matrix.toBlocks₂₂, Matrix.one_apply]
  have hu1 : IsUnit ((4/3 : ℝ) • (1 : Matrix (Fin (3/2)) (Fin (3/2)) ℝ)).det := by
    rw [Matrix.det_smul]
    simp
  have hu2 : IsUnit ((4/3 : ℝ) • (1 : Matrix (Fin (3 - 3/2)) (Fin (3 - 3/2)) ℝ)).det := by
    rw [Matrix.det_smul]
    norm_num
  rw [compute_gaussian_mi_eq_ok _ (by rw [h11]; exact hu1) (by rw [h22]; exact hu2),
    h11, h12, h22]
  simp only [Matrix.transpose_zero, Matrix.mul_zero, Matrix.zero_mul, sub_zero,
    Matrix.det_one]
  unfold negHalfLog
  rw [if_pos (by norm_num : (0 : ℝ) < 1), Real.log_one, mul_zero]

/-- C10: for every data matrix with `r` rows, `estimate_mvn_mi` returns
`compute_gaussian_mi(np.cov(data), floor(r/2))`, where the split puts the
first `floor(r/2)` rows in the x block and the remaining `r - floor(r/2)`
rows in the y block; in particular for odd `r` (here `r = 3`: x block of 1
row, y block of 2 rows) it does not fail but silently splits asymmetrically,
as on the concrete matrix `dataOdd` where it returns the finite value `0`. -/
theorem C10_estimate_is_plugin :
    (∀ (r n : ℕ) (data : Matrix (Fin r) (Fin n) ℝ),
      estimate_mvn_mi data =
        compute_gaussian_mi ((np_cov data).submatrix (splitIdx r) (splitIdx r))) ∧
    estimate_mvn_mi dataOdd = .ok (.finite 0) :=
  ⟨fun _ _ _ => rfl, estimate_dataOdd⟩
